import Mathlib

/-!
A shallow embedding of `main.go` and `pkg/fetch/fetch.go` of import-google-apis.

Go strings are byte sequences, so a string is a list of bytes (`Fin 256`) and the
functions of the Go packages `strings`, `sort` and `path/filepath` (Unix flavour,
separator `/`) that the program calls are written out over such lists.

The program talks to the file system, to `git` and to `protoc`.  The outcome of
each such call is supplied by a `World`: every operation receives the `History`
(the list of events so far, oldest first) and answers from it, which covers any
deterministic environment.  An event is a mutating library call (attempted, whether
or not it succeeds) or the entry into `describeAPI` or `copyFile`.  Functions of the
program return the extended history together with their Go result.  Printing to
stdout and to the log is not part of the model.
-/

namespace ImportGoogleApis

/-- A Go `string`: an immutable sequence of bytes. -/
abbrev GoString := List (Fin 256)

/-- A Go `error` value, identified with its message. -/
abbrev GoError := GoString

/-- UTF-8 encoding of one code point. -/
def utf8 (c : Char) : GoString :=
  let n := c.toNat
  if n < 128 then [Fin.ofNat n]
  else if n < 2048 then [Fin.ofNat (192 + n / 64), Fin.ofNat (128 + n % 64)]
  else if n < 65536 then
    [Fin.ofNat (224 + n / 4096), Fin.ofNat (128 + n / 64 % 64), Fin.ofNat (128 + n % 64)]
  else
    [Fin.ofNat (240 + n / 262144), Fin.ofNat (128 + n / 4096 % 64),
      Fin.ofNat (128 + n / 64 % 64), Fin.ofNat (128 + n % 64)]

/-- The bytes of a Go string literal (Go source text is UTF-8). -/
def str (s : String) : GoString := s.data.flatMap utf8

/-- Result of a Go call that returns `(value, error)` and may also panic. -/
inductive Outcome (α : Type) where
  | ok (v : α)
  | error (e : GoError)
  | panic
deriving DecidableEq, Repr

/-! ## Package `strings` -/

namespace strings

/-- Go `strings.HasPrefix`: `len(s) >= len(prefix) && s[:len(prefix)] == prefix`. -/
def HasPrefix (s pre : GoString) : Bool :=
  decide (pre.length ≤ s.length) && (s.take pre.length == pre)

/-- Go `strings.HasSuffix`: `len(s) >= len(suffix) && s[len(s)-len(suffix):] == suffix`. -/
def HasSuffix (s suffix : GoString) : Bool :=
  decide (suffix.length ≤ s.length) && (s.drop (s.length - suffix.length) == suffix)

/-- Go `strings.TrimSuffix`. -/
def TrimSuffix (s suffix : GoString) : GoString :=
  if HasSuffix s suffix then s.take (s.length - suffix.length) else s

/-- Scanner behind `Split` for a non-empty separator: `skip` counts the bytes of a
separator occurrence still to be passed over, `cur` is the piece being collected. -/
def splitGo (sep : GoString) : Nat → GoString → GoString → List GoString
  | _, cur, [] => [cur]
  | skip + 1, cur, _ :: cs => splitGo sep skip cur cs
  | 0, cur, c :: cs =>
    if sep.isPrefixOf (c :: cs) then cur :: splitGo sep (sep.length - 1) [] cs
    else splitGo sep 0 (cur ++ [c]) cs

/-- Go `strings.Split(s, sep)` for a non-empty `sep` (the program only splits on ";"). -/
def Split (s sep : GoString) : List GoString := splitGo sep 0 [] s

/-- Scanner behind `ReplaceAll` for a non-empty `old`. -/
def replaceGo (old new : GoString) : Nat → GoString → GoString
  | _, [] => []
  | skip + 1, _ :: cs => replaceGo old new skip cs
  | 0, c :: cs =>
    if old.isPrefixOf (c :: cs) then new ++ replaceGo old new (old.length - 1) cs
    else c :: replaceGo old new 0 cs

/-- Go `strings.ReplaceAll(s, old, new)` for a non-empty `old` (the program only
replaces "." and ";"). -/
def ReplaceAll (s old new : GoString) : GoString := replaceGo old new 0 s

end strings

/-! ## Package `sort` -/

namespace sort

/-- Go's `<` on strings: byte-wise lexicographic comparison. -/
def less : GoString → GoString → Bool
  | [], [] => false
  | [], _ :: _ => true
  | _ :: _, [] => false
  | a :: as, b :: bs => if a < b then true else if b < a then false else less as bs

/-- Insert `x` in front of the first element that is not below it. -/
def insert (x : GoString) : List GoString → List GoString
  | [] => [x]
  | y :: ys => if less y x then y :: insert x ys else x :: y :: ys

/-- Go `sort.Strings`: the slice rearranged into increasing order.  The library
algorithm is replaced by insertion sort. -/
def Strings : List GoString → List GoString
  | [] => []
  | x :: xs => insert x (Strings xs)

end sort

/-! ## Package `path/filepath` (Unix) -/

namespace filepath

/-- The path separator `/`. -/
def Separator : Fin 256 := 47

/-- The elements of a path: the pieces between separators (empty pieces included). -/
def elements : GoString → List GoString
  | [] => [[]]
  | c :: cs =>
    if c = Separator then [] :: elements cs
    else
      match elements cs with
      | [] => [[c]]
      | e :: es => (c :: e) :: es

/-- The element loop of `Clean`.  `out` holds the elements written so far, last one
first.  Empty and "." elements are dropped; ".." removes the last real element when
there is one, is kept when the path is not rooted, and is dropped otherwise. -/
def cleanGo (rooted : Bool) : List GoString → List GoString → List GoString
  | out, [] => out.reverse
  | out, e :: es =>
    if e = [] ∨ e = str "." then cleanGo rooted out es
    else if e = str ".." then
      match out with
      | top :: below =>
        if top ≠ str ".." then cleanGo rooted below es
        else if rooted then cleanGo rooted out es
        else cleanGo rooted (e :: out) es
      | [] => if rooted then cleanGo rooted out es else cleanGo rooted [e] es
    else cleanGo rooted (e :: out) es

/-- Go `filepath.Clean`. -/
def Clean (path : GoString) : GoString :=
  let rooted := path.head? = some Separator
  let out := cleanGo rooted [] (elements path)
  if rooted then Separator :: [Separator].intercalate out
  else if out = [] then str "." else [Separator].intercalate out

/-- Go `filepath.Join`: leading empty elements are ignored, the rest is joined with
separators and cleaned; all elements empty gives the empty string. -/
def Join (elem : List GoString) : GoString :=
  match elem.dropWhile (fun e => e = []) with
  | [] => []
  | rest => Clean ([Separator].intercalate rest)

/-- Strip trailing separators (first loop of `Base`). -/
def stripTrailing (path : GoString) : GoString :=
  (path.reverse.dropWhile (fun c => c = Separator)).reverse

/-- The bytes after the last separator (all of `path` when it has none). -/
def lastElement (path : GoString) : GoString :=
  (path.reverse.takeWhile (fun c => c ≠ Separator)).reverse

/-- Go `filepath.Base`. -/
def Base (path : GoString) : GoString :=
  if path = [] then str "."
  else
    let p := lastElement (stripTrailing path)
    if p = [] then [Separator] else p

/-- Go `filepath.Dir`: everything up to the last separator, cleaned. -/
def Dir (path : GoString) : GoString :=
  Clean (path.reverse.dropWhile (fun c => c ≠ Separator)).reverse

end filepath

/-! ## Data of the program -/

/-- One entry of the catalog (`ApiIndexEntry` in `main.go`). -/
structure ApiIndexEntry where
  Id : GoString
  Directory : GoString
  Version : GoString
  MajorVersion : GoString
  HostName : GoString
  Title : GoString
  Description : GoString
  ImportDirectories : List GoString
  ConfigFile : GoString
  NameInServiceConfig : GoString
deriving DecidableEq, Repr

/-- The catalog (`ApiIndex` in `main.go`). -/
structure ApiIndex where
  APIs : List ApiIndexEntry
deriving DecidableEq, Repr

/-- The part of `descriptorpb.FileDescriptorProto` the program reads: the optional
`name` field, a `*string` that is nil when the field is absent. -/
structure FileDescriptorProto where
  Name : Option GoString
deriving DecidableEq, Repr

/-- The files of a `descriptorpb.FileDescriptorSet`. -/
structure FileDescriptorSet where
  File : List FileDescriptorProto
deriving DecidableEq, Repr

/-- The fields of `encoding.Metadata` the program sets; a Go map literal is the list
of its key/value pairs in source order. -/
structure Metadata where
  Parent : GoString
  Name : GoString
  Labels : List (GoString × GoString)
  Annotations : List (GoString × GoString)
deriving DecidableEq, Repr

/-- Go `encoding.Header`. -/
structure Header where
  ApiVersion : GoString
  Kind : GoString
  Metadata : Metadata
deriving DecidableEq, Repr

/-- Go `encoding.ApiSpec` with the `encoding.ApiSpecData` fields the program sets. -/
structure ApiSpec where
  Header : Header
  FileName : GoString
  MimeType : GoString
deriving DecidableEq, Repr

/-- Go `encoding.ApiVersion` with the `encoding.ApiVersionData` field the program sets. -/
structure ApiVersion where
  Header : Header
  DisplayName : GoString
deriving DecidableEq, Repr

/-- Go `encoding.Api` with the `encoding.ApiData` field the program sets. -/
structure Api where
  Header : Header
  DisplayName : GoString
deriving DecidableEq, Repr

/-- A document handed to `encoding.EncodeYAML`. -/
inductive Record where
  | spec (r : ApiSpec)
  | version (r : ApiVersion)
  | api (r : Api)
deriving DecidableEq, Repr

/-- One call of the `filepath.Walk` callback: the path, whether `info.IsDir()` holds,
and the error passed in (nil when the entry could be read). -/
structure WalkVisit where
  path : GoString
  isDir : Bool
  err : Option GoError
deriving DecidableEq, Repr

/-- What a run leaves behind: the mutating library calls with their arguments, and
the calls of `describeAPI` and `copyFile` with theirs. -/
inductive Event where
  | describeAPI (apiIndex : ApiIndexEntry)
  | copyFile (src dest : GoString)
  | MkdirAll (path : GoString) (perm : Nat)
  | MkdirTemp (dir pattern : GoString)
  | RemoveAll (path : GoString)
  | WriteFile (name data : GoString) (perm : Nat)
  | Command (dir name : GoString) (args : List GoString)
deriving DecidableEq, Repr

/-- The events so far, oldest first. -/
abbrev History := List Event

/-- The environment of a run.  `Walk` lists the callback invocations `filepath.Walk`
makes for a root as long as the callback returns nil; `CombinedOutput` runs a command
in a working directory and gives its output and error; the other fields are the
library calls of the same name.  `RegistryV1` is the constant `encoding.RegistryV1`
and `updated` the date string computed once at program start. -/
structure World where
  RegistryV1 : GoString
  updated : GoString
  yamlMarshal : ApiIndexEntry → Except GoError GoString
  yamlUnmarshal : GoString → Except GoError ApiIndex
  protoUnmarshal : GoString → Except GoError FileDescriptorSet
  EncodeYAML : Record → Except GoError GoString
  Walk : History → GoString → List WalkVisit
  Stat : History → GoString → Option GoError
  ReadFile : History → GoString → Except GoError GoString
  MkdirAll : History → GoString → Nat → Option GoError
  MkdirTemp : History → GoString → GoString → Except GoError GoString
  WriteFile : History → GoString → GoString → Nat → Option GoError
  CombinedOutput : History → GoString → GoString → List GoString → GoString × Option GoError

/-! ## Package-level variables of `main.go` -/

/-- Go `var dir = "deps"`. -/
def dir : GoString := str "deps"

/-- Go `var top = "googleapis"`. -/
def top : GoString := str "googleapis"

/-- Go `var provider = "google.com"`. -/
def provider : GoString := str "google.com"

/-- Go `var source = "import-google-apis"`. -/
def source : GoString := str "import-google-apis"

/-- Go `var deps`: the source repositories. -/
def deps : List GoString := [str "https://github.com/googleapis/googleapis"]

/-- Go `var out = "apis/google.com"`. -/
def out : GoString := str "apis/google.com"

/-! ## `pkg/fetch/fetch.go` -/

namespace fetch

/-- Go `exists`: true when `os.Stat` returns no error. -/
def exists_ (w : World) (h : History) (path : GoString) : Bool :=
  (w.Stat h path).isNone

/-- The `git clone` command run for the repository `d` with working directory `dir`. -/
def cloneOf (dir d : GoString) : Event :=
  Event.Command dir (str "git") [str "clone", d]

/-- The loop of `FetchDependencies` over the dependency strings.  `parts[0]` always
exists because `Split` returns at least one piece. -/
def fetchLoop (w : World) (dir : GoString) :
    History → List GoString → History × Option GoError
  | h, [] => (h, none)
  | h, d :: rest =>
    let parts := strings.Split d (str ";")
    let d := parts.headD []
    let target := filepath.Join [dir, filepath.Base d]
    if exists_ w h target then fetchLoop w dir h rest
    else
      match (w.CombinedOutput h dir (str "git") [str "clone", d]).2 with
      | some err => (h ++ [cloneOf dir d], some err)
      | none => fetchLoop w dir (h ++ [cloneOf dir d]) rest

/-- Go `FetchDependencies`. -/
def FetchDependencies (w : World) (h : History) (dir : GoString) (deps : List GoString) :
    History × Option GoError :=
  match w.MkdirAll h dir 0o777 with
  | some err => (h ++ [Event.MkdirAll dir 0o777], some err)
  | none => fetchLoop w dir (h ++ [Event.MkdirAll dir 0o777]) deps

end fetch

/-! ## `main.go` -/

/-- Go `readIndex`. -/
def readIndex (w : World) (h : History) (dir : GoString) : Except GoError ApiIndex :=
  let p := filepath.Join [dir, str "api-index-v1.json"]
  match w.ReadFile h p with
  | .error err => .error err
  | .ok bytes => w.yamlUnmarshal bytes

/-- The callback given to `filepath.Walk` in `listAllProtos` and in `describeAPI`:
it returns the error it is handed, skips directories, and appends a path that ends
in ".proto". -/
def walkFn (protos : List GoString) (v : WalkVisit) : List GoString × Option GoError :=
  match v.err with
  | some err => (protos, some err)
  | none =>
    if v.isDir then (protos, none)
    else if strings.HasSuffix v.path (str ".proto") then (protos ++ [v.path], none)
    else (protos, none)

/-- Go `filepath.Walk` with the callback `walkFn`: the walk stops at the first visit
for which the callback returns an error, and returns that error. -/
def walkProtos : List GoString → List WalkVisit → List GoString × Option GoError
  | protos, [] => (protos, none)
  | protos, v :: vs =>
    match walkFn protos v with
    | (protos1, some err) => (protos1, some err)
    | (protos1, none) => walkProtos protos1 vs

/-- Go `listAllProtos`: it returns the list collected so far together with the error. -/
def listAllProtos (w : World) (h : History) (dir : GoString) :
    List GoString × Option GoError :=
  walkProtos [] (w.Walk h dir)

/-- Go `copyFile`. -/
def copyFile (w : World) (h : History) (src dest : GoString) : History × Option GoError :=
  let h0 := h ++ [Event.copyFile src dest]
  let dir := filepath.Dir dest
  let h1 := h0 ++ [Event.MkdirAll dir 0o777]
  match w.MkdirAll h0 dir 0o777 with
  | some err => (h1, some err)
  | none =>
    match w.ReadFile h1 src with
    | .error err => (h1, some err)
    | .ok input => (h1 ++ [Event.WriteFile dest input 0o644], w.WriteFile h1 dest input 0o644)

/-- A Go `map[string]bool` in which every stored value is `true`, as the list of its
distinct keys.  Go leaves the order in which `range` visits a map unspecified; the
list order stands for one such order. -/
abbrev StringSet := List GoString

/-- Go `m[k] = true`. -/
def StringSet.set (m : StringSet) (k : GoString) : StringSet :=
  if k ∈ m then m else m ++ [k]

/-- The first loop of `protosFromFileDescriptorSet` (lines 335-340).  `*file.Name`
panics when the name is absent, which is the result `none`. -/
def collectNames : StringSet → List FileDescriptorProto → Option StringSet
  | filenameset, [] => some filenameset
  | filenameset, file :: files =>
    match file.Name with
    | none => none
    | some filename =>
      if !strings.HasPrefix filename (str "google/protobuf/") then
        collectNames (filenameset.set filename) files
      else collectNames filenameset files

/-- Go `protosFromFileDescriptorSet`. -/
def protosFromFileDescriptorSet (w : World) (h : History) (filename : GoString) :
    Outcome (List GoString) :=
  match w.ReadFile h filename with
  | .error err => .error err
  | .ok bytes =>
    match w.protoUnmarshal bytes with
    | .error err => .error err
    | .ok fds =>
      match collectNames [] fds.File with
      | none => .panic
      | some filenameset => .ok (sort.Strings filenameset)

/-- The arguments `referencedProtos` passes to `protoc`. -/
def protocArgs (tempDir : GoString) (protos : List GoString) : List GoString :=
  let args := [str "-o", tempDir ++ str "/proto.pb", str "--include_imports"]
  let imports := deps.flatMap fun d =>
    [str "-I", strings.ReplaceAll (filepath.Join [dir, filepath.Base d]) (str ";") (str "/")]
  args ++ imports ++ protos

/-- Go `referencedProtos`.  The deferred `os.RemoveAll(tempDir)` runs on every way out
once the temporary directory exists. -/
def referencedProtos (w : World) (h : History) (protos : List GoString) (root : GoString) :
    History × Outcome (List GoString) :=
  let h1 := h ++ [Event.MkdirTemp (str "") (str "proto-import-")]
  match w.MkdirTemp h (str "") (str "proto-import-") with
  | .error err => (h1, .error err)
  | .ok tempDir =>
    let args := protocArgs tempDir protos
    let h2 := h1 ++ [Event.Command root (str "protoc") args]
    match (w.CombinedOutput h1 root (str "protoc") args).2 with
    | some err =>
      (h2 ++ [Event.RemoveAll tempDir],
        .error (str "failed to compile protos with protoc: " ++ err))
    | none =>
      (h2 ++ [Event.RemoveAll tempDir],
        protosFromFileDescriptorSet w h2 (tempDir ++ str "/proto.pb"))

/-- Go `displayName`. -/
def displayName (name : GoString) : GoString :=
  if !strings.HasPrefix name (str "Google") then str "Google " ++ name else name

/-- The `apiID` of `describeAPI` (line 155). -/
def apiID (apiIndex : ApiIndexEntry) : GoString :=
  strings.TrimSuffix apiIndex.NameInServiceConfig (str ".googleapis.com")

/-- The `versionID` of `describeAPI` (line 156). -/
def versionID (apiIndex : ApiIndexEntry) : GoString := apiIndex.Version

/-- The `specID` of `describeAPI` (line 157). -/
def specID : GoString := str "protos"

/-- The `Labels` map written into each of the three records. -/
def labels (w : World) : List (GoString × GoString) :=
  [(str "provider", strings.ReplaceAll provider (str ".") (str "-")),
   (str "updated", w.updated),
   (str "source", source)]

/-- The `apiSpec` value of `describeAPI` (lines 188-211). -/
def apiSpec (w : World) (apiIndex : ApiIndexEntry) : ApiSpec where
  Header :=
    { ApiVersion := w.RegistryV1
      Kind := str "Spec"
      Metadata :=
        { Parent :=
            str "apis/" ++ provider ++ str "-" ++ apiID apiIndex ++ str "/versions/" ++
              versionID apiIndex
          Name := specID
          Labels := labels w
          Annotations :=
            [(str "config", apiIndex.ConfigFile),
             (str "directory", apiIndex.Directory),
             (str "host", apiIndex.HostName)] } }
  FileName := str "protos.zip"
  MimeType := str "application/x.protobuf+zip"

/-- The `apiVersion` value of `describeAPI` (lines 223-240). -/
def apiVersion (w : World) (apiIndex : ApiIndexEntry) : ApiVersion where
  Header :=
    { ApiVersion := w.RegistryV1
      Kind := str "Version"
      Metadata :=
        { Parent := str "apis/" ++ provider ++ str "-" ++ apiID apiIndex
          Name := versionID apiIndex
          Labels := labels w
          Annotations := [] } }
  DisplayName := versionID apiIndex

/-- The `api` value of `describeAPI` (lines 252-268). -/
def api (w : World) (apiIndex : ApiIndexEntry) : Api where
  Header :=
    { ApiVersion := w.RegistryV1
      Kind := str "API"
      Metadata :=
        { Parent := []
          Name := provider ++ str "-" ++ apiID apiIndex
          Labels := labels w
          Annotations := [] } }
  DisplayName := displayName apiIndex.Title

/-- The inner loop of the copy loop (lines 168-176) for the logical path `a`: the
first `p` that has `a` as a suffix is copied and the loop is left. -/
def copyFirst (w : World) (h : History) (specDir a : GoString) :
    List GoString → History × Option GoError
  | [] => (h, none)
  | p :: ps =>
    if strings.HasSuffix p a then copyFile w h p (filepath.Join [specDir, a])
    else copyFirst w h specDir a ps

/-- The copy loop of `describeAPI` (lines 167-177). -/
def copyLoop (w : World) (specDir : GoString) (allProtos : List GoString) :
    History → List GoString → History × Option GoError
  | h, [] => (h, none)
  | h, a :: rest =>
    match copyFirst w h specDir a allProtos with
    | (h1, some err) => (h1, some err)
    | (h1, none) => copyLoop w specDir allProtos h1 rest

/-- One "build and save info.yaml" step of `describeAPI`: encode, then write. -/
def saveInfo (w : World) (h : History) (r : Record) (name : GoString) :
    History × Option GoError :=
  match w.EncodeYAML r with
  | .error err => (h, some err)
  | .ok b => (h ++ [Event.WriteFile name b 0o664], w.WriteFile h name b 0o664)

/-- The `specDir` of `describeAPI` (line 166); the directory created at line 160 is the
same path. -/
def specDir (apiIndex : ApiIndexEntry) : GoString :=
  filepath.Join [out, apiID apiIndex, versionID apiIndex, specID]

/-- The part of `describeAPI` after the compilation (lines 154-279), `all` being the
list returned by `referencedProtos`. -/
def assemble (w : World) (h : History) (apiIndex : ApiIndexEntry) (container : GoString)
    (allProtos all : List GoString) : History × Outcome Unit :=
  let apiID := apiID apiIndex
  let versionID := versionID apiIndex
  let h1 := h ++ [Event.MkdirAll (filepath.Join [out, apiID, versionID, specID]) 0o777]
  match w.MkdirAll h (filepath.Join [out, apiID, versionID, specID]) 0o777 with
  | some err => (h1, .error err)
  | none =>
    match copyLoop w (specDir apiIndex) allProtos h1 all with
    | (h2, some err) => (h2, .error err)
    | (h2, none) =>
      let serviceConfigPath := filepath.Join [container, apiIndex.ConfigFile]
      let localPath :=
        filepath.Join [specDir apiIndex, apiIndex.Directory, apiIndex.ConfigFile]
      match copyFile w h2 serviceConfigPath localPath with
      | (h3, some err) => (h3, .error err)
      | (h3, none) =>
        match saveInfo w h3 (.spec (apiSpec w apiIndex))
            (filepath.Join [out, apiID, versionID, specID, str "info.yaml"]) with
        | (h4, some err) => (h4, .error err)
        | (h4, none) =>
          match saveInfo w h4 (.version (apiVersion w apiIndex))
              (filepath.Join [out, apiID, versionID, str "info.yaml"]) with
          | (h5, some err) => (h5, .error err)
          | (h5, none) =>
            match saveInfo w h5 (.api (api w apiIndex))
                (filepath.Join [out, apiID, str "info.yaml"]) with
            | (h6, some err) => (h6, .error err)
            | (h6, none) => (h6, .ok ())

/-- Go `describeAPI`. -/
def describeAPI (w : World) (h : History) (apiIndex : ApiIndexEntry) (root : GoString)
    (allProtos : List GoString) : History × Outcome Unit :=
  let h0 := h ++ [Event.describeAPI apiIndex]
  match w.yamlMarshal apiIndex with
  | .error err => (h0, .error err)
  | .ok _ =>
    let container := filepath.Join [root, apiIndex.Directory]
    match walkProtos [] (w.Walk h0 container) with
    | (_, some err) => (h0, .error err)
    | (protos, none) =>
      if protos.length = 0 then (h0, .ok ())
      else
        match referencedProtos w h0 protos (str "") with
        | (h1, .error err) => (h1, .error err)
        | (h1, .panic) => (h1, .panic)
        | (h1, .ok all) => assemble w h1 apiIndex container allProtos all

/-- How the process ends: normally, by a panic, or by `log.Fatalf` while processing
an API. -/
inductive Exit where
  | ok
  | panic (err : Option GoError)
  | fatal (apiIndex : ApiIndexEntry) (err : GoError)
deriving DecidableEq, Repr

/-- The loop of `main` over the catalog (lines 61-66). -/
def mainLoop (w : World) (root : GoString) (allProtos : List GoString) :
    History → List ApiIndexEntry → History × Exit
  | h, [] => (h, .ok)
  | h, apiIndex :: rest =>
    match describeAPI w h apiIndex root allProtos with
    | (h1, .error err) => (h1, .fatal apiIndex err)
    | (h1, .panic) => (h1, .panic none)
    | (h1, .ok _) => mainLoop w root allProtos h1 rest

/-- Go `main`. -/
def main (w : World) (h : History) : History × Exit :=
  match fetch.FetchDependencies w h dir deps with
  | (h1, some err) => (h1, .panic (some err))
  | (h1, none) =>
    match listAllProtos w h1 dir with
    | (_, some err) => (h1, .panic (some err))
    | (allProtos, none) =>
      match readIndex w h1 (filepath.Join [dir, top]) with
      | .error err => (h1, .panic (some err))
      | .ok index => mainLoop w (filepath.Join [dir, top]) allProtos h1 index.APIs

/-! ## Reading a history -/

/-- The `copyFile` calls recorded in a history, as (source, destination) pairs. -/
def copies : History → List (GoString × GoString)
  | [] => []
  | Event.copyFile src dest :: h => (src, dest) :: copies h
  | _ :: h => copies h

/-- The catalog entries `describeAPI` was called on, in order. -/
def described : History → List ApiIndexEntry
  | [] => []
  | Event.describeAPI apiIndex :: h => apiIndex :: described h
  | _ :: h => described h

/-- Whether an event is a run of `git clone`. -/
def isClone : Event → Bool
  | Event.Command _ name args => name = str "git" && args.head? = some (str "clone")
  | _ => false

/-- The `git clone` runs recorded in a history. -/
def clones (h : History) : List Event := h.filter isClone

/-! ## Sample environments -/

/-- An environment in which every call succeeds: `Walk` visits what `visits` lists for
the root, and the descriptor set `protoc` leaves behind decodes to `fds`. -/
def quietWorld (visits : GoString → List WalkVisit) (fds : FileDescriptorSet) : World where
  RegistryV1 := str "apigeeregistry/v1"
  updated := str "2023-06-01"
  yamlMarshal := fun _ => .ok []
  yamlUnmarshal := fun _ => .ok { APIs := [] }
  protoUnmarshal := fun _ => .ok fds
  EncodeYAML := fun _ => .ok []
  Walk := fun _ root => visits root
  Stat := fun _ _ => none
  ReadFile := fun _ _ => .ok []
  MkdirAll := fun _ _ _ => none
  MkdirTemp := fun _ _ _ => .ok (str "/tmp/proto-import-1")
  WriteFile := fun _ _ _ _ => none
  CombinedOutput := fun _ _ _ _ => ([], none)

/-- A descriptor set as `protoc --include_imports` writes it when one file is listed
several times and imports a built-in file. -/
def sampleSet : FileDescriptorSet where
  File :=
    [{ Name := some (str "google/type/date.proto") },
     { Name := some (str "google/protobuf/any.proto") },
     { Name := some (str "google/api/http.proto") },
     { Name := some (str "google/type/date.proto") },
     { Name := some (str "google/api/http.proto") }]


/-- A catalog entry of the shape found in `api-index-v1.json`. -/
def fooEntry : ApiIndexEntry where
  Id := str "google.cloud.foo.v1"
  Directory := str "google/cloud/foo/v1"
  Version := str "v1"
  MajorVersion := str "v1"
  HostName := str "foo.googleapis.com"
  Title := str "Cloud Foo API"
  Description := str "Manages foos."
  ImportDirectories := []
  ConfigFile := str "foo_v1.yaml"
  NameInServiceConfig := str "foo.googleapis.com"

/-- The physical files of the sample tree, in the order `filepath.Walk` meets them. -/
def samplePhysical : List GoString :=
  [str "deps/googleapis/google/cloud/foo/v1/foo.proto",
   str "deps/googleapis/google/type/date.proto"]

/-- What `filepath.Walk` visits in the sample tree: below the directory of `fooEntry`
the file foo.proto, below any other root the two physical files. -/
def sampleVisits (root : GoString) : List WalkVisit :=
  if root = str "deps/googleapis/google/cloud/foo/v1" then
    [{ path := root, isDir := true, err := none },
     { path := str "deps/googleapis/google/cloud/foo/v1/foo.proto", isDir := false,
       err := none }]
  else
    { path := root, isDir := true, err := none } ::
      samplePhysical.map fun p => { path := p, isDir := false, err := none }

/-- The descriptor set `protoc` produces for foo.proto, which imports date.proto and a
built-in file. -/
def fooSet : FileDescriptorSet where
  File :=
    [{ Name := some (str "google/type/date.proto") },
     { Name := some (str "google/protobuf/timestamp.proto") },
     { Name := some (str "google/cloud/foo/v1/foo.proto") }]

/-- The sample tree with every call succeeding, except that foo.proto cannot be read. -/
def unreadableWorld : World :=
  { quietWorld sampleVisits fooSet with
    ReadFile := fun _ name =>
      if name = str "deps/googleapis/google/cloud/foo/v1/foo.proto" then
        .error (str "permission denied")
      else .ok [] }

/-- A tree in which one file lies in a directory whose name ends in "api" and a later
one in a directory named "api". -/
def overlapPhysical : List GoString :=
  [str "deps/googleapis/google/cloud/someapi/foo.proto",
   str "deps/googleapis/vendor/api/foo.proto"]

/-- What `filepath.Walk` visits in that tree. -/
def overlapVisits (root : GoString) : List WalkVisit :=
  { path := root, isDir := true, err := none } ::
    overlapPhysical.map fun p => { path := p, isDir := false, err := none }

/-- What `filepath.Walk` visits in a directory that holds a build file, a service
configuration and a subdirectory, but no definition file. -/
def noProtoVisits (root : GoString) : List WalkVisit :=
  [{ path := root, isDir := true, err := none },
   { path := root ++ str "/BUILD.bazel", isDir := false, err := none },
   { path := root ++ str "/foo_v1.yaml", isDir := false, err := none },
   { path := root ++ str "/old.proto", isDir := true, err := none }]

/-- An environment in which the destination directory cannot be created. -/
def readOnlyWorld : World :=
  { quietWorld sampleVisits fooSet with
    MkdirAll := fun _ _ _ => some (str "read-only file system") }

/-- An environment in which nothing has been fetched yet: `os.Stat` fails everywhere. -/
def freshWorld : World :=
  { quietWorld sampleVisits fooSet with
    Stat := fun _ _ => some (str "no such file or directory") }

/-- A catalog entry whose directory holds no definition file. -/
def barEntry : ApiIndexEntry :=
  { fooEntry with
    Id := str "google.cloud.bar.v1"
    Directory := str "google/cloud/bar/v1"
    Title := str "Cloud Bar API"
    ConfigFile := str "bar_v1.yaml"
    NameInServiceConfig := str "bar.googleapis.com" }

/-- A third catalog entry. -/
def bazEntry : ApiIndexEntry :=
  { fooEntry with
    Id := str "google.cloud.baz.v1"
    Directory := str "google/cloud/baz/v1"
    Title := str "Cloud Baz API"
    ConfigFile := str "baz_v1.yaml"
    NameInServiceConfig := str "baz.googleapis.com" }

/-- The sample tree in which only the directory of `fooEntry` holds a definition file,
and that file cannot be read. -/
def failingWorld : World :=
  { unreadableWorld with
    Walk := fun _ root =>
      if root = str "deps/googleapis/google/cloud/foo/v1" then sampleVisits root
      else noProtoVisits root }

/-- A path element that `Clean` copies unchanged: not empty, not "." or "..", and
without a separator. -/
def filepath.plain (e : GoString) : Bool :=
  decide (e ≠ []) && decide (e ≠ str ".") && decide (e ≠ str "..") &&
    decide (filepath.Separator ∉ e)
/-! ## The order used by `sort.Strings` -/

theorem sort.less_irrefl : ∀ a : GoString, sort.less a a = false
  | [] => rfl
  | x :: xs => by simp [sort.less, sort.less_irrefl xs]

theorem sort.less_trans : ∀ a b c : GoString,
    sort.less a b = true → sort.less b c = true → sort.less a c = true
  | [], [], _, h, _ => by simp [sort.less] at h
  | [], _ :: _, [], _, h => by simp [sort.less] at h
  | [], _ :: _, _ :: _, _, _ => by simp [sort.less]
  | _ :: _, [], _, h, _ => by simp [sort.less] at h
  | _ :: _, _ :: _, [], _, h => by simp [sort.less] at h
  | x :: xs, y :: ys, z :: zs, h1, h2 => by
    simp only [sort.less] at h1 h2 ⊢
    rcases lt_trichotomy x y with hxy | hxy | hxy
    · rcases lt_trichotomy y z with hyz | hyz | hyz
      · simp [lt_trans hxy hyz]
      · subst hyz; simp [hxy]
      · simp [hyz, not_lt_of_gt hyz] at h2
    · subst hxy
      rcases lt_trichotomy x z with hxz | hxz | hxz
      · simp [hxz]
      · subst hxz
        simp only [lt_irrefl, if_false] at h1 h2 ⊢
        exact sort.less_trans xs ys zs h1 h2
      · simp [hxz, not_lt_of_gt hxz] at h2
    · simp [hxy, not_lt_of_gt hxy] at h1

theorem sort.less_total : ∀ a b : GoString,
    a ≠ b → sort.less a b = true ∨ sort.less b a = true
  | [], [], h => absurd rfl h
  | [], _ :: _, _ => by simp [sort.less]
  | _ :: _, [], _ => by simp [sort.less]
  | x :: xs, y :: ys, h => by
    simp only [sort.less]
    rcases lt_trichotomy x y with hxy | hxy | hxy
    · simp [hxy]
    · subst hxy
      have hne : xs ≠ ys := fun e => h (by rw [e])
      simpa using sort.less_total xs ys hne
    · simp [hxy]

theorem sort.mem_insert (x y : GoString) : ∀ l : List GoString,
    y ∈ sort.insert x l ↔ y = x ∨ y ∈ l
  | [] => by simp [sort.insert]
  | z :: zs => by
    unfold sort.insert
    split
    · simp only [List.mem_cons, sort.mem_insert x y zs]; tauto
    · simp only [List.mem_cons]

theorem sort.mem_Strings (y : GoString) : ∀ l : List GoString, y ∈ sort.Strings l ↔ y ∈ l
  | [] => by simp [sort.Strings]
  | x :: xs => by
    simp only [sort.Strings, sort.mem_insert, sort.mem_Strings y xs, List.mem_cons]

theorem sort.pairwise_insert (x : GoString) : ∀ l : List GoString,
    l.Pairwise (fun a b => sort.less a b = true) → x ∉ l →
    (sort.insert x l).Pairwise (fun a b => sort.less a b = true)
  | [], _, _ => by simp [sort.insert]
  | y :: ys, hp, hx => by
    have hy := List.pairwise_cons.mp hp
    have hxy : x ≠ y := fun e => hx (by simp [e])
    have hxs : x ∉ ys := fun e => hx (List.mem_cons_of_mem _ e)
    unfold sort.insert
    split
    · rename_i hlt
      refine List.pairwise_cons.mpr ⟨?_, sort.pairwise_insert x ys hy.2 hxs⟩
      intro z hz
      rcases (sort.mem_insert x z ys).mp hz with rfl | hz
      · exact hlt
      · exact hy.1 z hz
    · rename_i hlt
      have hlt2 : sort.less x y = true := by
        rcases sort.less_total x y hxy with h | h
        · exact h
        · exact absurd h hlt
      refine List.pairwise_cons.mpr ⟨?_, hp⟩
      intro z hz
      rcases List.mem_cons.mp hz with rfl | hz
      · exact hlt2
      · exact sort.less_trans _ _ _ hlt2 (hy.1 z hz)

theorem sort.pairwise_Strings : ∀ l : List GoString, l.Nodup →
    (sort.Strings l).Pairwise (fun a b => sort.less a b = true)
  | [], _ => by simp [sort.Strings]
  | x :: xs, hn => by
    have h := List.nodup_cons.mp hn
    exact sort.pairwise_insert x _ (sort.pairwise_Strings xs h.2)
      (fun e => h.1 ((sort.mem_Strings x xs).mp e))

theorem sort.nodup_of_pairwise {l : List GoString}
    (h : l.Pairwise (fun a b => sort.less a b = true)) : l.Nodup := by
  refine List.Pairwise.imp ?_ h
  intro a b hab e
  subst e
  rw [sort.less_irrefl] at hab
  exact Bool.noConfusion hab

/-- Two strictly increasing lists with the same elements are equal. -/
theorem sort.eq_of_pairwise_of_mem : ∀ l₁ l₂ : List GoString,
    l₁.Pairwise (fun a b => sort.less a b = true) →
    l₂.Pairwise (fun a b => sort.less a b = true) →
    (∀ s, s ∈ l₁ ↔ s ∈ l₂) → l₁ = l₂
  | [], [], _, _, _ => rfl
  | [], y :: _, _, _, h => by simpa using h y
  | x :: _, [], _, _, h => by simpa using h x
  | x :: xs, y :: ys, h1, h2, h => by
    have p1 := List.pairwise_cons.mp h1
    have p2 := List.pairwise_cons.mp h2
    have asym : ∀ a b : GoString, sort.less a b = true → sort.less b a = true → False := by
      intro a b hab hba
      have := sort.less_trans a b a hab hba
      rw [sort.less_irrefl] at this
      exact Bool.noConfusion this
    have hxy : x = y := by
      have hx : x ∈ y :: ys := (h x).mp (List.mem_cons_self _ _)
      have hy : y ∈ x :: xs := (h y).mpr (List.mem_cons_self _ _)
      rcases List.mem_cons.mp hx with e | hx
      · exact e
      · rcases List.mem_cons.mp hy with e | hy
        · exact e.symm
        · exact (asym x y (p1.1 y hy) (p2.1 x hx)).elim
    subst hxy
    have irr : ∀ l : List GoString, (∀ z ∈ l, sort.less x z = true) → x ∉ l := by
      intro l hl hm
      have := hl x hm
      rw [sort.less_irrefl] at this
      exact Bool.noConfusion this
    have hrest : ∀ s, s ∈ xs ↔ s ∈ ys := by
      intro s
      constructor
      · intro hs
        rcases List.mem_cons.mp ((h s).mp (List.mem_cons_of_mem _ hs)) with e | hs2
        · subst e; exact (irr xs p1.1 hs).elim
        · exact hs2
      · intro hs
        rcases List.mem_cons.mp ((h s).mpr (List.mem_cons_of_mem _ hs)) with e | hs2
        · subst e; exact (irr ys p2.1 hs).elim
        · exact hs2
    rw [sort.eq_of_pairwise_of_mem xs ys p1.2 p2.2 hrest]

/-- The result of `sort.Strings` on the keys of a map does not depend on the order in
which `range` delivered them. -/
theorem sort.Strings_eq_of_perm {l₁ l₂ : List GoString} (hp : l₁.Perm l₂) (hn : l₁.Nodup) :
    sort.Strings l₁ = sort.Strings l₂ :=
  sort.eq_of_pairwise_of_mem _ _ (sort.pairwise_Strings l₁ hn)
    (sort.pairwise_Strings l₂ (hp.nodup_iff.mp hn))
    (fun s => by rw [sort.mem_Strings, sort.mem_Strings]; exact hp.mem_iff)

/-! ## `protosFromFileDescriptorSet` -/

theorem StringSet.mem_set (m : StringSet) (k s : GoString) :
    s ∈ m.set k ↔ s ∈ m ∨ s = k := by
  unfold StringSet.set
  split
  · constructor
    · exact Or.inl
    · rintro (h | rfl)
      · exact h
      · assumption
  · simp

theorem StringSet.nodup_set (m : StringSet) (k : GoString) (hm : m.Nodup) :
    (m.set k).Nodup := by
  unfold StringSet.set
  split
  · exact hm
  · rename_i hk
    exact List.nodup_append.mpr ⟨hm, List.nodup_singleton k, by
      intro a ha hb
      rw [List.mem_singleton] at hb
      exact hk (hb ▸ ha)⟩

theorem collectNames_isSome : ∀ (files : List FileDescriptorProto) (m : StringSet),
    (∀ f ∈ files, f.Name ≠ none) → ∃ m1, collectNames m files = some m1
  | [], m, _ => ⟨m, rfl⟩
  | f :: fs, m, h => by
    have hf := h f (List.mem_cons_self _ _)
    have hfs : ∀ g ∈ fs, g.Name ≠ none := fun g hg => h g (List.mem_cons_of_mem _ hg)
    cases hn : f.Name with
    | none => exact absurd hn hf
    | some n =>
      simp only [collectNames, hn]
      split
      · exact collectNames_isSome fs _ hfs
      · exact collectNames_isSome fs _ hfs

theorem collectNames_nodup : ∀ (files : List FileDescriptorProto) (m m1 : StringSet),
    collectNames m files = some m1 → m.Nodup → m1.Nodup
  | [], m, m1, h, hm => by
    simp only [collectNames, Option.some.injEq] at h
    exact h ▸ hm
  | f :: fs, m, m1, h, hm => by
    cases hn : f.Name with
    | none => simp [collectNames, hn] at h
    | some n =>
      simp only [collectNames, hn] at h
      split at h
      · exact collectNames_nodup fs _ m1 h (StringSet.nodup_set m n hm)
      · exact collectNames_nodup fs _ m1 h hm

theorem collectNames_mem (s : GoString) : ∀ (files : List FileDescriptorProto)
    (m m1 : StringSet), collectNames m files = some m1 →
    (s ∈ m1 ↔ s ∈ m ∨ ((∃ f ∈ files, f.Name = some s) ∧
      strings.HasPrefix s (str "google/protobuf/") = false))
  | [], m, m1, h => by
    simp only [collectNames, Option.some.injEq] at h
    subst h
    simp
  | f :: fs, m, m1, h => by
    cases hn : f.Name with
    | none => simp [collectNames, hn] at h
    | some n =>
      simp only [collectNames, hn] at h
      split at h
      · rename_i hp
        have hp1 : strings.HasPrefix n (str "google/protobuf/") = false := by simpa using hp
        rw [collectNames_mem s fs _ m1 h, StringSet.mem_set]
        constructor
        · rintro ((hm | rfl) | ⟨⟨g, hg, hgs⟩, hs⟩)
          · exact Or.inl hm
          · exact Or.inr ⟨⟨f, List.mem_cons_self _ _, hn⟩, hp1⟩
          · exact Or.inr ⟨⟨g, List.mem_cons_of_mem _ hg, hgs⟩, hs⟩
        · rintro (hm | ⟨⟨g, hg, hgs⟩, hs⟩)
          · exact Or.inl (Or.inl hm)
          · rcases List.mem_cons.mp hg with rfl | hg
            · rw [hn] at hgs
              exact Or.inl (Or.inr (Option.some.inj hgs).symm)
            · exact Or.inr ⟨⟨g, hg, hgs⟩, hs⟩
      · rename_i hp
        have hp1 : strings.HasPrefix n (str "google/protobuf/") = true := by simpa using hp
        rw [collectNames_mem s fs _ m1 h]
        constructor
        · rintro (hm | ⟨⟨g, hg, hgs⟩, hs⟩)
          · exact Or.inl hm
          · exact Or.inr ⟨⟨g, List.mem_cons_of_mem _ hg, hgs⟩, hs⟩
        · rintro (hm | ⟨⟨g, hg, hgs⟩, hs⟩)
          · exact Or.inl hm
          · rcases List.mem_cons.mp hg with rfl | hg
            · rw [hn] at hgs
              rw [← Option.some.inj hgs, hp1] at hs
              exact Bool.noConfusion hs
            · exact Or.inr ⟨⟨g, hg, hgs⟩, hs⟩

/-- Once the file is read and decoded, the result is decided by the first loop. -/
theorem protosFromFileDescriptorSet_eq (w : World) (h : History) (filename bytes : GoString)
    (fds : FileDescriptorSet) (hr : w.ReadFile h filename = .ok bytes)
    (hu : w.protoUnmarshal bytes = .ok fds) :
    protosFromFileDescriptorSet w h filename =
      match collectNames [] fds.File with
      | none => .panic
      | some filenameset => .ok (sort.Strings filenameset) := by
  simp only [protosFromFileDescriptorSet, hr, hu]

/-- C1: for every descriptor set the function decodes, a list it returns is in
strictly ascending byte-wise lexicographic order, hence without repetition, however
often a name is repeated in the set; and it does return a list when every file of
the set carries a name. -/
theorem protosFromFileDescriptorSet_strictly_ascending (w : World) (h : History)
    (filename bytes : GoString) (fds : FileDescriptorSet)
    (hr : w.ReadFile h filename = .ok bytes) (hu : w.protoUnmarshal bytes = .ok fds) :
    (∀ l, protosFromFileDescriptorSet w h filename = .ok l →
        l.Pairwise (fun a b => sort.less a b = true) ∧ l.Nodup) ∧
    ((∀ f ∈ fds.File, f.Name ≠ none) →
        ∃ l, protosFromFileDescriptorSet w h filename = .ok l) := by
  rw [protosFromFileDescriptorSet_eq w h filename bytes fds hr hu]
  constructor
  · intro l hl
    cases hc : collectNames [] fds.File with
    | none => simp [hc] at hl
    | some m =>
      simp only [hc, Outcome.ok.injEq] at hl
      subst hl
      have hp := sort.pairwise_Strings m (collectNames_nodup _ _ _ hc List.nodup_nil)
      exact ⟨hp, sort.nodup_of_pairwise hp⟩
  · intro hn
    obtain ⟨m, hm⟩ := collectNames_isSome fds.File [] hn
    exact ⟨sort.Strings m, by simp only [hm]⟩

theorem protosFromFileDescriptorSet_strictly_ascending_witness :
    ([str "google/api/http.proto", str "google/type/date.proto"] : List GoString).Pairwise
        (fun a b => sort.less a b = true) ∧
      ([str "google/api/http.proto", str "google/type/date.proto"] : List GoString).Nodup :=
  (protosFromFileDescriptorSet_strictly_ascending (quietWorld (fun _ => []) sampleSet) []
    (str "/tmp/proto-import-1/proto.pb") [] sampleSet rfl rfl).1 _ (by decide)

/-- C2: for every descriptor set the function decodes, a path is in a list it returns
exactly when it is the name of a file of the set and does not start with
"google/protobuf/", and a set of one file outside that namespace gives the list of
that one path; it does return a list when every file of the set carries a name. -/
theorem protosFromFileDescriptorSet_mem_iff (w : World) (h : History)
    (filename bytes : GoString) (fds : FileDescriptorSet)
    (hr : w.ReadFile h filename = .ok bytes) (hu : w.protoUnmarshal bytes = .ok fds) :
    (∀ l, protosFromFileDescriptorSet w h filename = .ok l →
      (∀ s, s ∈ l ↔ ((∃ f ∈ fds.File, f.Name = some s) ∧
        strings.HasPrefix s (str "google/protobuf/") = false)) ∧
      (∀ n, fds.File = [{ Name := some n }] →
        strings.HasPrefix n (str "google/protobuf/") = false → l = [n])) ∧
    ((∀ f ∈ fds.File, f.Name ≠ none) →
      ∃ l, protosFromFileDescriptorSet w h filename = .ok l) := by
  rw [protosFromFileDescriptorSet_eq w h filename bytes fds hr hu]
  constructor
  · intro l hl
    cases hc : collectNames [] fds.File with
    | none => simp [hc] at hl
    | some m =>
      simp only [hc, Outcome.ok.injEq] at hl
      subst hl
      constructor
      · intro s
        rw [sort.mem_Strings, collectNames_mem s _ _ _ hc]
        simp
      · intro n hf hp
        rw [hf] at hc
        simp only [collectNames, hp, Bool.not_false, if_true, StringSet.set,
          List.not_mem_nil, if_false, List.nil_append, Option.some.injEq] at hc
        subst hc
        rfl
  · intro hn
    obtain ⟨m, hm⟩ := collectNames_isSome fds.File [] hn
    exact ⟨sort.Strings m, by simp only [hm]⟩

theorem protosFromFileDescriptorSet_mem_iff_witness :
    (str "google/api/http.proto" ∈
        [str "google/api/http.proto", str "google/type/date.proto"] ↔
      ((∃ f ∈ sampleSet.File, f.Name = some (str "google/api/http.proto")) ∧
        strings.HasPrefix (str "google/api/http.proto") (str "google/protobuf/") = false)) ∧
    ∃ l, protosFromFileDescriptorSet (quietWorld (fun _ => []) sampleSet) []
      (str "/tmp/proto-import-1/proto.pb") = .ok l :=
  ⟨((protosFromFileDescriptorSet_mem_iff (quietWorld (fun _ => []) sampleSet) []
      (str "/tmp/proto-import-1/proto.pb") [] sampleSet rfl rfl).1 _ (by decide)).1 _,
    (protosFromFileDescriptorSet_mem_iff (quietWorld (fun _ => []) sampleSet) []
      (str "/tmp/proto-import-1/proto.pb") [] sampleSet rfl rfl).2 (by decide)⟩

/-! ## The records written by `describeAPI` -/

theorem saveInfo_ok (w : World) (h h1 : History) (r : Record) (name : GoString)
    (hs : saveInfo w h r name = (h1, none)) :
    ∃ b, w.EncodeYAML r = .ok b ∧ h1 = h ++ [Event.WriteFile name b 0o664] := by
  unfold saveInfo at hs
  split at hs
  · simp at hs
  · rename_i b hb
    simp only [Prod.mk.injEq] at hs
    exact ⟨b, hb, hs.1.symm⟩

/-- When the part of `describeAPI` after the compilation returns nil, the last three
events are the writes of the encoded Spec, Version and API records to the three
info.yaml files. -/
theorem assemble_saves_records (w : World) (h h1 : History) (apiIndex : ApiIndexEntry)
    (container : GoString) (allProtos all : List GoString)
    (hok : assemble w h apiIndex container allProtos all = (h1, .ok ())) :
    ∃ h0 b1 b2 b3,
      w.EncodeYAML (.spec (apiSpec w apiIndex)) = .ok b1 ∧
      w.EncodeYAML (.version (apiVersion w apiIndex)) = .ok b2 ∧
      w.EncodeYAML (.api (api w apiIndex)) = .ok b3 ∧
      h1 = h0 ++
        [Event.WriteFile (filepath.Join [out, apiID apiIndex, versionID apiIndex, specID,
            str "info.yaml"]) b1 0o664,
         Event.WriteFile (filepath.Join [out, apiID apiIndex, versionID apiIndex,
            str "info.yaml"]) b2 0o664,
         Event.WriteFile (filepath.Join [out, apiID apiIndex, str "info.yaml"]) b3 0o664] := by
  unfold assemble at hok
  simp only at hok
  split at hok
  · simp at hok
  · split at hok
    · simp at hok
    · split at hok
      · simp at hok
      · rename_i h3 _
        split at hok
        · simp at hok
        · rename_i h4 hs4
          split at hok
          · simp at hok
          · rename_i h5 hs5
            split at hok
            · simp at hok
            · rename_i h6 hs6
              simp only [Prod.mk.injEq, and_true] at hok
              obtain ⟨b1, e1, rfl⟩ := saveInfo_ok w h3 h4 _ _ hs4
              obtain ⟨b2, e2, rfl⟩ := saveInfo_ok w _ h5 _ _ hs5
              obtain ⟨b3, e3, rfl⟩ := saveInfo_ok w _ h6 _ _ hs6
              exact ⟨h3, b1, b2, b3, e1, e2, e3, by rw [← hok]; simp⟩

/-! ## `displayName` and the record identifiers -/

theorem hasPrefix_Google_append (t : GoString) :
    strings.HasPrefix (str "Google " ++ t) (str "Google") = true := by
  have h1 : str "Google " = [71, 111, 111, 103, 108, 101, 32] := by decide
  have h2 : str "Google" = [71, 111, 111, 103, 108, 101] := by decide
  rw [h1, h2]
  simp [strings.HasPrefix]

/-- C10: `displayName t` is `t` when `t` starts with "Google" and "Google " followed
by `t` otherwise; so it always starts with "Google", applying it twice is the same as
applying it once, and the display name of the API record starts with "Google". -/
theorem displayName_spec (t : GoString) :
    displayName t =
        (if strings.HasPrefix t (str "Google") = true then t else str "Google " ++ t) ∧
      strings.HasPrefix (displayName t) (str "Google") = true ∧
      displayName (displayName t) = displayName t ∧
      (∀ (w : World) (apiIndex : ApiIndexEntry),
        (api w apiIndex).DisplayName = displayName apiIndex.Title ∧
        strings.HasPrefix (api w apiIndex).DisplayName (str "Google") = true) := by
  have key : ∀ u : GoString, strings.HasPrefix (displayName u) (str "Google") = true := by
    intro u
    unfold displayName
    cases hu : strings.HasPrefix u (str "Google")
    · simpa using hasPrefix_Google_append u
    · simpa using hu
  refine ⟨?_, key t, ?_, fun w apiIndex => ⟨rfl, key _⟩⟩
  · unfold displayName
    cases strings.HasPrefix t (str "Google") <;> simp
  · have fix : ∀ u : GoString, strings.HasPrefix u (str "Google") = true →
        displayName u = u := by
      intro u hu
      simp [displayName, hu]
    exact fix _ (key t)

/-- C3: with `i` the API id computed by `describeAPI` (the service-config name without
a trailing ".googleapis.com") and `v` the version of the catalog entry, the API record
is named "google.com-" i, the Version record has parent "apis/google.com-" i and name
`v`, and the Spec record has parent "apis/google.com-" i "/versions/" v and name
"protos"; for `i` = "foo" and `v` = "v1" these are the literal strings of the spec.
These are the records `describeAPI` encodes and writes to the three info.yaml files
when it runs to its end. -/
theorem describeAPI_record_identifiers (w : World) (apiIndex : ApiIndexEntry)
    (i v : GoString) (hi : apiID apiIndex = i) (hv : apiIndex.Version = v) :
    ((api w apiIndex).Header.Metadata.Name = str "google.com" ++ str "-" ++ i ∧
      (apiVersion w apiIndex).Header.Metadata.Parent =
        str "apis/" ++ str "google.com" ++ str "-" ++ i ∧
      (apiVersion w apiIndex).Header.Metadata.Name = v ∧
      (apiSpec w apiIndex).Header.Metadata.Parent =
        str "apis/" ++ str "google.com" ++ str "-" ++ i ++ str "/versions/" ++ v ∧
      (apiSpec w apiIndex).Header.Metadata.Name = str "protos") ∧
    (i = str "foo" → v = str "v1" →
      (api w apiIndex).Header.Metadata.Name = str "google.com-foo" ∧
      (apiVersion w apiIndex).Header.Metadata.Parent = str "apis/google.com-foo" ∧
      (apiVersion w apiIndex).Header.Metadata.Name = str "v1" ∧
      (apiSpec w apiIndex).Header.Metadata.Parent = str "apis/google.com-foo/versions/v1" ∧
      (apiSpec w apiIndex).Header.Metadata.Name = str "protos") ∧
    (∀ (h h1 : History) (container : GoString) (allProtos all : List GoString),
      assemble w h apiIndex container allProtos all = (h1, .ok ()) →
      ∃ h0 b1 b2 b3,
        w.EncodeYAML (.spec (apiSpec w apiIndex)) = .ok b1 ∧
        w.EncodeYAML (.version (apiVersion w apiIndex)) = .ok b2 ∧
        w.EncodeYAML (.api (api w apiIndex)) = .ok b3 ∧
        h1 = h0 ++
          [Event.WriteFile (filepath.Join [out, apiID apiIndex, versionID apiIndex, specID,
              str "info.yaml"]) b1 0o664,
           Event.WriteFile (filepath.Join [out, apiID apiIndex, versionID apiIndex,
              str "info.yaml"]) b2 0o664,
           Event.WriteFile (filepath.Join [out, apiID apiIndex, str "info.yaml"]) b3
              0o664]) := by
  subst hi hv
  refine ⟨⟨rfl, rfl, rfl, rfl, rfl⟩, ?_, ?_⟩
  · intro hi hv
    simp only [api, apiVersion, apiSpec, versionID, specID, provider, hi, hv]
    decide
  · intro h h1 container allProtos all hok
    exact assemble_saves_records w h h1 apiIndex container allProtos all hok

theorem describeAPI_record_identifiers_witness :
    (api (quietWorld (fun _ => []) sampleSet) fooEntry).Header.Metadata.Name =
        str "google.com-foo" ∧
      (apiVersion (quietWorld (fun _ => []) sampleSet) fooEntry).Header.Metadata.Parent =
        str "apis/google.com-foo" ∧
      (apiVersion (quietWorld (fun _ => []) sampleSet) fooEntry).Header.Metadata.Name =
        str "v1" ∧
      (apiSpec (quietWorld (fun _ => []) sampleSet) fooEntry).Header.Metadata.Parent =
        str "apis/google.com-foo/versions/v1" ∧
      (apiSpec (quietWorld (fun _ => []) sampleSet) fooEntry).Header.Metadata.Name =
        str "protos" :=
  (describeAPI_record_identifiers (quietWorld (fun _ => []) sampleSet) fooEntry
    (str "foo") (str "v1") (by decide) (by decide)).2.1 rfl rfl

/-! ## `filepath.Join` on plain elements -/

/-- The function `sort.less` is the lexicographic order on byte sequences. -/
theorem sort.less_iff_lex : ∀ a b : GoString,
    sort.less a b = true ↔ List.Lex (· < ·) a b
  | [], [] => by simp [sort.less]
  | [], _ :: _ => by simp [sort.less, List.Lex.nil]
  | _ :: _, [] => by simp [sort.less]
  | x :: xs, y :: ys => by
    simp only [sort.less]
    rcases lt_trichotomy x y with hxy | hxy | hxy
    · simp only [hxy, if_true, true_iff]
      exact List.Lex.rel hxy
    · subst hxy
      simp only [lt_irrefl, if_false]
      rw [sort.less_iff_lex xs ys]
      exact List.Lex.cons_iff.symm
    · simp only [not_lt_of_gt hxy, if_false, hxy, if_true, Bool.false_eq_true, false_iff]
      intro h
      cases h with
      | cons h => exact lt_irrefl _ hxy
      | rel h => exact lt_asymm h hxy

theorem filepath.intercalate_cons_cons (e e1 : GoString) (es : List GoString) :
    [filepath.Separator].intercalate (e :: e1 :: es) =
      e ++ filepath.Separator :: [filepath.Separator].intercalate (e1 :: es) := by
  simp [List.intercalate, List.intersperse]

theorem filepath.intercalate_append : ∀ l₁ l₂ : List GoString, l₁ ≠ [] → l₂ ≠ [] →
    [filepath.Separator].intercalate (l₁ ++ l₂) =
      [filepath.Separator].intercalate l₁ ++
        filepath.Separator :: [filepath.Separator].intercalate l₂
  | [], _, h, _ => absurd rfl h
  | _, [], _, h => absurd rfl h
  | [e], e2 :: l₂, _, _ => by
    rw [List.singleton_append, filepath.intercalate_cons_cons]
    simp [List.intercalate, List.intersperse]
  | e :: e1 :: l₁, e2 :: l₂, _, h2 => by
    rw [List.cons_append, List.cons_append, filepath.intercalate_cons_cons,
      filepath.intercalate_cons_cons, ← List.cons_append,
      filepath.intercalate_append (e1 :: l₁) (e2 :: l₂) (List.cons_ne_nil _ _) h2]
    simp

theorem filepath.elements_of_no_separator : ∀ e : GoString, filepath.Separator ∉ e →
    filepath.elements e = [e]
  | [], _ => rfl
  | c :: cs, h => by
    have hc : c ≠ filepath.Separator := fun e => h (by simp [e])
    have hcs : filepath.Separator ∉ cs := fun e => h (List.mem_cons_of_mem _ e)
    simp [filepath.elements, hc, filepath.elements_of_no_separator cs hcs]

theorem filepath.elements_append (rest : GoString) : ∀ e : GoString,
    filepath.Separator ∉ e →
    filepath.elements (e ++ filepath.Separator :: rest) = e :: filepath.elements rest
  | [], _ => by simp [filepath.elements]
  | c :: cs, h => by
    have hc : c ≠ filepath.Separator := fun e => h (by simp [e])
    have hcs : filepath.Separator ∉ cs := fun e => h (List.mem_cons_of_mem _ e)
    simp [filepath.elements, hc, filepath.elements_append rest cs hcs]

theorem filepath.elements_intercalate : ∀ es : List GoString, es ≠ [] →
    (∀ e ∈ es, filepath.Separator ∉ e) →
    filepath.elements ([filepath.Separator].intercalate es) = es
  | [], h, _ => absurd rfl h
  | [e], _, h => by
    have : [filepath.Separator].intercalate [e] = e := by
      simp [List.intercalate, List.intersperse]
    rw [this]
    exact filepath.elements_of_no_separator e (h e (List.mem_singleton_self e))
  | e :: e1 :: es, _, h => by
    rw [filepath.intercalate_cons_cons,
      filepath.elements_append _ e (h e (List.mem_cons_self _ _)),
      filepath.elements_intercalate (e1 :: es) (List.cons_ne_nil _ _)
        (fun x hx => h x (List.mem_cons_of_mem _ hx))]

theorem filepath.plain_iff (e : GoString) :
    filepath.plain e = true ↔
      e ≠ [] ∧ e ≠ str "." ∧ e ≠ str ".." ∧ filepath.Separator ∉ e := by
  simp [filepath.plain, and_assoc]

theorem filepath.cleanGo_plain (rooted : Bool) : ∀ (es out : List GoString),
    (∀ e ∈ es, filepath.plain e = true) →
    filepath.cleanGo rooted out es = out.reverse ++ es
  | [], out, _ => by simp [filepath.cleanGo]
  | e :: es, out, h => by
    have he := (filepath.plain_iff e).mp (h e (List.mem_cons_self _ _))
    have hes : ∀ x ∈ es, filepath.plain x = true := fun x hx => h x (List.mem_cons_of_mem _ hx)
    simp only [filepath.cleanGo, he.1, he.2.1, he.2.2.1, or_self, if_false]
    rw [filepath.cleanGo_plain rooted es (e :: out) hes]
    simp

/-- A relative path made of plain elements is left unchanged by `Clean`. -/
theorem filepath.Clean_plain (es : List GoString) (hne : es ≠ [])
    (h : ∀ e ∈ es, filepath.plain e = true) :
    filepath.Clean ([filepath.Separator].intercalate es) =
      [filepath.Separator].intercalate es := by
  have hsep : ∀ e ∈ es, filepath.Separator ∉ e :=
    fun e he => ((filepath.plain_iff e).mp (h e he)).2.2.2
  have hroot : ¬ ([filepath.Separator].intercalate es).head? = some filepath.Separator := by
    cases es with
    | nil => exact absurd rfl hne
    | cons e es =>
      have he := (filepath.plain_iff e).mp (h e (List.mem_cons_self _ _))
      cases e with
      | nil => exact absurd rfl he.1
      | cons c cs =>
        have hc : c ≠ filepath.Separator := fun e => he.2.2.2 (by simp [e])
        cases es with
        | nil => simpa [List.intercalate, List.intersperse] using hc
        | cons e1 es =>
          rw [filepath.intercalate_cons_cons]
          simpa using hc
  unfold filepath.Clean
  simp only [hroot, filepath.elements_intercalate es hne hsep, decide_False,
    filepath.cleanGo_plain _ es [] h, List.reverse_nil, List.nil_append, hne, if_false,
    Bool.false_eq_true]

/-- For plain `apiID` and `versionID` and a logical path `a` made of plain elements,
the destination `filepath.Join(specDir, a)` is literally out/apiID/versionID/protos/a. -/
theorem specDir_join_plain (apiIndex : ApiIndexEntry) (a : GoString) (as : List GoString)
    (hi : filepath.plain (apiID apiIndex) = true)
    (hv : filepath.plain (versionID apiIndex) = true)
    (has : as ≠ []) (hplain : ∀ e ∈ as, filepath.plain e = true)
    (ha : a = [filepath.Separator].intercalate as) :
    filepath.Join [specDir apiIndex, a] =
      out ++ str "/" ++ apiID apiIndex ++ str "/" ++ versionID apiIndex ++ str "/protos/" ++ a := by
  have hbase : ∀ e ∈ [str "apis", str "google.com", apiID apiIndex, versionID apiIndex,
      str "protos"], filepath.plain e = true := by
    intro e he
    simp only [List.mem_cons, List.mem_singleton, List.not_mem_nil, or_false] at he
    rcases he with rfl | rfl | rfl | rfl | rfl
    · decide
    · decide
    · exact hi
    · exact hv
    · decide
  have hout : out = str "apis" ++ filepath.Separator :: str "google.com" := by decide
  have hspec : specDir apiIndex = [filepath.Separator].intercalate
      [str "apis", str "google.com", apiID apiIndex, versionID apiIndex, str "protos"] := by
    have hne : out ≠ [] := by decide
    have e1 : [filepath.Separator].intercalate
        [out, apiID apiIndex, versionID apiIndex, specID] =
        [filepath.Separator].intercalate
          [str "apis", str "google.com", apiID apiIndex, versionID apiIndex, str "protos"] := by
      rw [hout]
      simp [List.intercalate, List.intersperse, specID]
    unfold specDir filepath.Join
    simp only [List.dropWhile, hne, decide_False]
    rw [e1]
    exact filepath.Clean_plain _ (List.cons_ne_nil _ _) hbase
  have hlit : out ++ str "/" ++ apiID apiIndex ++ str "/" ++ versionID apiIndex ++
      str "/protos/" ++ a = specDir apiIndex ++ filepath.Separator :: a := by
    rw [hspec, hout]
    have h1 : str "/" = [filepath.Separator] := by decide
    have h2 : str "/protos/" = filepath.Separator :: (str "protos" ++ [filepath.Separator]) := by
      decide
    rw [h1, h2]
    simp [List.intercalate, List.intersperse]
  have hsne : specDir apiIndex ≠ [] := by
    rw [hspec]
    simp [List.intercalate, List.intersperse]
  have hjoin : filepath.Join [specDir apiIndex, a] =
      filepath.Clean (specDir apiIndex ++ filepath.Separator :: a) := by
    unfold filepath.Join
    simp [List.dropWhile, hsne, List.intercalate, List.intersperse]
  rw [hjoin, hlit, hspec, ha,
    ← filepath.intercalate_append _ as (List.cons_ne_nil _ _) has]
  apply filepath.Clean_plain _ (by simp)
  intro e he
  rcases List.mem_append.mp he with h1 | h1
  · exact hbase e h1
  · exact hplain e h1

/-! ## The copy loop of `describeAPI` -/

theorem copies_append : ∀ h₁ h₂ : History, copies (h₁ ++ h₂) = copies h₁ ++ copies h₂
  | [], _ => rfl
  | e :: h₁, h₂ => by
    cases e <;> simp [copies, copies_append h₁ h₂]

theorem copies_copyFile (w : World) (h : History) (src dest : GoString) :
    copies (copyFile w h src dest).1 = copies h ++ [(src, dest)] := by
  unfold copyFile
  simp only
  split
  · simp [copies_append, copies]
  · split <;> simp [copies_append, copies]

theorem copyFirst_no_match (w : World) (h : History) (specDir a : GoString) :
    ∀ l : List GoString, (∀ q ∈ l, strings.HasSuffix q a = false) →
      copyFirst w h specDir a l = (h, none)
  | [], _ => rfl
  | q :: l, hl => by
    have hq := hl q (List.mem_cons_self _ _)
    simp only [copyFirst, hq, Bool.false_eq_true, if_false]
    exact copyFirst_no_match w h specDir a l (fun r hr => hl r (List.mem_cons_of_mem _ hr))

theorem copyFirst_first_match (w : World) (h : History) (specDir a p : GoString)
    (after : List GoString) (hp : strings.HasSuffix p a = true) :
    ∀ before : List GoString, (∀ q ∈ before, strings.HasSuffix q a = false) →
      copyFirst w h specDir a (before ++ p :: after) =
        copyFile w h p (filepath.Join [specDir, a])
  | [], _ => by simp [copyFirst, hp]
  | q :: l, hl => by
    have hq := hl q (List.mem_cons_self _ _)
    simp only [List.cons_append, copyFirst, hq, Bool.false_eq_true, if_false]
    exact copyFirst_first_match w h specDir a p after hp l
      (fun r hr => hl r (List.mem_cons_of_mem _ hr))

theorem copyLoop_append (w : World) (specDir : GoString) (allProtos : List GoString) :
    ∀ (l₁ l₂ : List GoString) (h : History),
      copyLoop w specDir allProtos h (l₁ ++ l₂) =
        match copyLoop w specDir allProtos h l₁ with
        | (h1, some err) => (h1, some err)
        | (h1, none) => copyLoop w specDir allProtos h1 l₂
  | [], _, _ => rfl
  | a :: l₁, l₂, h => by
    simp only [List.cons_append, copyLoop]
    rcases hc : copyFirst w h specDir a allProtos with ⟨h1, _ | err⟩
    · simp only
      exact copyLoop_append w specDir allProtos l₁ l₂ h1
    · rfl

/-- C4 as stated fails: foo.proto and date.proto are both in the resolved set and both
have a physical match, but the copy of foo.proto fails, `describeAPI` returns that
error, and no copy is made for date.proto. -/
theorem copyLoop_stops_at_failed_copy :
    protosFromFileDescriptorSet unreadableWorld [] (str "/tmp/proto-import-1/proto.pb") =
        .ok [str "google/cloud/foo/v1/foo.proto", str "google/type/date.proto"] ∧
      (∃ p ∈ samplePhysical, strings.HasSuffix p (str "google/type/date.proto") = true) ∧
      copies (copyLoop unreadableWorld (specDir fooEntry) samplePhysical []
          [str "google/cloud/foo/v1/foo.proto", str "google/type/date.proto"]).1 =
        [(str "deps/googleapis/google/cloud/foo/v1/foo.proto",
          str "apis/google.com/foo/v1/protos/google/cloud/foo/v1/foo.proto")] ∧
      (describeAPI unreadableWorld [] fooEntry (str "deps/googleapis") samplePhysical).2 =
        .error (str "permission denied") ∧
      copies (describeAPI unreadableWorld [] fooEntry (str "deps/googleapis")
          samplePhysical).1 =
        [(str "deps/googleapis/google/cloud/foo/v1/foo.proto",
          str "apis/google.com/foo/v1/protos/google/cloud/foo/v1/foo.proto")] ∧
      (∀ c ∈ copies (describeAPI unreadableWorld [] fooEntry (str "deps/googleapis")
          samplePhysical).1,
        c.2 ≠ filepath.Join [specDir fooEntry, str "google/type/date.proto"]) := by
  set_option maxRecDepth 100000 in decide

/-- C4, amended: when the loop gets to the logical path `a` (the iterations for the
paths `pre` before it returned no error, leaving the history `h1`) and `p` is the first
entry of `allProtos` with `a` as a suffix, the iteration for `a` is one call of
`copyFile`, from `p` to `filepath.Join(specDir, a)` with `specDir` the joined path
out/apiID/versionID/protos; the loop then returns the error of that call or goes on
with the paths after `a`.  When `apiID`, `versionID` and the elements of `a` are plain
path elements the destination is literally out/apiID/versionID/protos/a. -/
theorem copyLoop_first_match (w : World) (apiIndex : ApiIndexEntry) (h h1 : History)
    (pre post before after : List GoString) (a p : GoString) (allProtos : List GoString)
    (hpre : copyLoop w (specDir apiIndex) allProtos h pre = (h1, none))
    (hsplit : allProtos = before ++ p :: after)
    (hbefore : ∀ q ∈ before, strings.HasSuffix q a = false)
    (hp : strings.HasSuffix p a = true) :
    copyLoop w (specDir apiIndex) allProtos h (pre ++ [a]) =
        copyFile w h1 p
          (filepath.Join [filepath.Join [out, apiID apiIndex, versionID apiIndex, specID], a]) ∧
      copies (copyLoop w (specDir apiIndex) allProtos h (pre ++ [a])).1 =
        copies h1 ++
          [(p, filepath.Join
            [filepath.Join [out, apiID apiIndex, versionID apiIndex, specID], a])] ∧
      copyLoop w (specDir apiIndex) allProtos h (pre ++ a :: post) =
        (match copyFile w h1 p (filepath.Join [specDir apiIndex, a]) with
        | (h2, some err) => (h2, some err)
        | (h2, none) => copyLoop w (specDir apiIndex) allProtos h2 post) ∧
      (∀ as : List GoString, filepath.plain (apiID apiIndex) = true →
        filepath.plain (versionID apiIndex) = true → as ≠ [] →
        (∀ e ∈ as, filepath.plain e = true) → a = [filepath.Separator].intercalate as →
        filepath.Join [filepath.Join [out, apiID apiIndex, versionID apiIndex, specID], a] =
          out ++ str "/" ++ apiID apiIndex ++ str "/" ++ versionID apiIndex ++
            str "/protos/" ++ a) := by
  have hfirst : copyFirst w h1 (specDir apiIndex) a allProtos =
      copyFile w h1 p (filepath.Join [specDir apiIndex, a]) := by
    rw [hsplit]
    exact copyFirst_first_match w h1 (specDir apiIndex) a p after hp before hbefore
  have hone : copyLoop w (specDir apiIndex) allProtos h (pre ++ [a]) =
      copyFile w h1 p (filepath.Join [specDir apiIndex, a]) := by
    rw [copyLoop_append, hpre]
    simp only [copyLoop, hfirst]
    rcases copyFile w h1 p (filepath.Join [specDir apiIndex, a]) with ⟨h2, _ | err⟩ <;> rfl
  refine ⟨hone, ?_, ?_, ?_⟩
  · rw [hone]
    exact copies_copyFile w h1 p _
  · rw [copyLoop_append, hpre]
    simp only [copyLoop, hfirst]
  · intro as hi hv has hplain ha
    exact specDir_join_plain apiIndex a as hi hv has hplain ha

theorem copyLoop_first_match_witness :
    copies (copyLoop (quietWorld sampleVisits fooSet) (specDir fooEntry) samplePhysical []
        ([str "google/cloud/foo/v1/foo.proto"] ++ [str "google/type/date.proto"])).1 =
      [(str "deps/googleapis/google/cloud/foo/v1/foo.proto",
        str "apis/google.com/foo/v1/protos/google/cloud/foo/v1/foo.proto")] ++
        [(str "deps/googleapis/google/type/date.proto",
          str "apis/google.com/foo/v1/protos/google/type/date.proto")] :=
  (copyLoop_first_match (quietWorld sampleVisits fooSet) fooEntry []
    (copyLoop (quietWorld sampleVisits fooSet) (specDir fooEntry) samplePhysical []
      [str "google/cloud/foo/v1/foo.proto"]).1
    [str "google/cloud/foo/v1/foo.proto"] []
    [str "deps/googleapis/google/cloud/foo/v1/foo.proto"] []
    (str "google/type/date.proto") (str "deps/googleapis/google/type/date.proto")
    samplePhysical (by set_option maxRecDepth 100000 in decide) (by decide) (by decide)
    (by decide)).2.1.trans (by set_option maxRecDepth 100000 in decide)

/-- C5: when no entry of `allProtos` ends with the logical path `a`, the iteration for
`a` makes no call and returns no error, whatever the history; the copy loop and the
rest of `describeAPI` after it run exactly as if `a` were not in the resolved set. -/
theorem copyLoop_skips_unmatched (w : World) (apiIndex : ApiIndexEntry)
    (container : GoString) (allProtos pre post : List GoString) (a : GoString)
    (hno : ∀ p ∈ allProtos, strings.HasSuffix p a = false) :
    (∀ h1, copyFirst w h1 (specDir apiIndex) a allProtos = (h1, none)) ∧
      (∀ h, copyLoop w (specDir apiIndex) allProtos h (pre ++ a :: post) =
        copyLoop w (specDir apiIndex) allProtos h (pre ++ post)) ∧
      (∀ h, assemble w h apiIndex container allProtos (pre ++ a :: post) =
        assemble w h apiIndex container allProtos (pre ++ post)) := by
  have hone : ∀ h1, copyFirst w h1 (specDir apiIndex) a allProtos = (h1, none) :=
    fun h1 => copyFirst_no_match w h1 (specDir apiIndex) a allProtos hno
  have hloop : ∀ h, copyLoop w (specDir apiIndex) allProtos h (pre ++ a :: post) =
      copyLoop w (specDir apiIndex) allProtos h (pre ++ post) := by
    intro h
    rw [copyLoop_append, copyLoop_append]
    simp only [copyLoop, hone]
  refine ⟨hone, hloop, ?_⟩
  intro h
  simp only [assemble, hloop]

theorem copyLoop_skips_unmatched_witness :
    copyLoop (quietWorld sampleVisits fooSet) (specDir fooEntry) samplePhysical []
        ([str "google/cloud/foo/v1/foo.proto"] ++
          str "google/rpc/status.proto" :: [str "google/type/date.proto"]) =
      copyLoop (quietWorld sampleVisits fooSet) (specDir fooEntry) samplePhysical []
        ([str "google/cloud/foo/v1/foo.proto"] ++ [str "google/type/date.proto"]) :=
  (copyLoop_skips_unmatched (quietWorld sampleVisits fooSet) fooEntry
    (str "deps/googleapis/google/cloud/foo/v1") samplePhysical
    [str "google/cloud/foo/v1/foo.proto"] [str "google/type/date.proto"]
    (str "google/rpc/status.proto") (by decide)).2.1 []

/-- C9: the match is a plain suffix test.  With the physical list as `listAllProtos`
collects it, the logical path "api/foo.proto" is copied from
"deps/googleapis/google/cloud/someapi/foo.proto", which ends with it in the middle of
the directory name "someapi", although the next entry ends with "/api/foo.proto". -/
theorem copyLoop_suffix_ignores_path_boundaries :
    listAllProtos (quietWorld overlapVisits fooSet) [] dir = (overlapPhysical, none) ∧
      overlapPhysical =
        [str "deps/googleapis/google/cloud/someapi/foo.proto",
         str "deps/googleapis/vendor/api/foo.proto"] ∧
      strings.HasSuffix (str "deps/googleapis/google/cloud/someapi/foo.proto")
        (str "api/foo.proto") = true ∧
      strings.HasSuffix (str "deps/googleapis/google/cloud/someapi/foo.proto")
        (str "/" ++ str "api/foo.proto") = false ∧
      strings.HasSuffix (str "deps/googleapis/vendor/api/foo.proto")
        (str "/" ++ str "api/foo.proto") = true ∧
      copies (copyLoop (quietWorld overlapVisits fooSet) (specDir fooEntry)
          overlapPhysical [] [str "api/foo.proto"]).1 =
        [(str "deps/googleapis/google/cloud/someapi/foo.proto",
          str "apis/google.com/foo/v1/protos/api/foo.proto")] := by
  set_option maxRecDepth 100000 in decide

/-! ## APIs without definition files -/

theorem walkProtos_nothing_found : ∀ (visits : List WalkVisit) (protos : List GoString),
    (∀ v ∈ visits, v.err = none ∧
      (v.isDir = true ∨ strings.HasSuffix v.path (str ".proto") = false)) →
    walkProtos protos visits = (protos, none)
  | [], _, _ => rfl
  | v :: vs, protos, hv => by
    have h1 := hv v (List.mem_cons_self _ _)
    have hstep : walkFn protos v = (protos, none) := by
      unfold walkFn
      rw [h1.1]
      rcases h1.2 with hd | hs
      · simp [hd]
      · simp [hs]
    simp only [walkProtos, hstep]
    exact walkProtos_nothing_found vs protos (fun u hu => hv u (List.mem_cons_of_mem _ hu))

/-- C6: when the scan of the declared directory succeeds and finds no file ending in
".proto" (which is the case when every visit is error-free and is a directory or a
file with another ending), `describeAPI` returns nil and the history gains nothing
but the record of the call: no `protoc` run, no directory made, no copy, no write. -/
theorem describeAPI_skips_api_without_protos (w : World) (h : History)
    (apiIndex : ApiIndexEntry) (root : GoString) (allProtos : List GoString) (b : GoString)
    (hm : w.yamlMarshal apiIndex = .ok b)
    (hscan : walkProtos [] (w.Walk (h ++ [Event.describeAPI apiIndex])
      (filepath.Join [root, apiIndex.Directory])) = ([], none)) :
    describeAPI w h apiIndex root allProtos = (h ++ [Event.describeAPI apiIndex], .ok ()) ∧
      ((∀ v ∈ w.Walk (h ++ [Event.describeAPI apiIndex])
            (filepath.Join [root, apiIndex.Directory]),
          v.err = none ∧ (v.isDir = true ∨ strings.HasSuffix v.path (str ".proto") = false)) →
        walkProtos [] (w.Walk (h ++ [Event.describeAPI apiIndex])
          (filepath.Join [root, apiIndex.Directory])) = ([], none)) := by
  refine ⟨?_, walkProtos_nothing_found _ []⟩
  simp [describeAPI, hm, hscan]

theorem describeAPI_skips_api_without_protos_witness :
    describeAPI (quietWorld noProtoVisits fooSet) [] fooEntry (str "deps/googleapis")
        samplePhysical = ([] ++ [Event.describeAPI fooEntry], .ok ()) :=
  (describeAPI_skips_api_without_protos (quietWorld noProtoVisits fooSet) [] fooEntry
    (str "deps/googleapis") samplePhysical [] rfl
    (by set_option maxRecDepth 100000 in decide)).1

/-! ## `FetchDependencies` -/

theorem strings.splitGo_head (cs : GoString) : ∀ cur : GoString,
    (strings.splitGo (str ";") 0 cur cs).headD [] = cur ++ cs.takeWhile (fun c => c ≠ 59) := by
  have hsep : str ";" = [59] := by decide
  rw [hsep]
  induction cs with
  | nil => intro cur; simp [strings.splitGo]
  | cons c cs ih =>
    intro cur
    by_cases hc : c = 59
    · subst hc
      simp [strings.splitGo, List.isPrefixOf]
    · have hc2 : ¬ (59 : Fin 256) = c := fun e => hc e.symm
      have hstep : strings.splitGo [59] 0 cur (c :: cs) =
          strings.splitGo [59] 0 (cur ++ [c]) cs := by
        simp [strings.splitGo, List.isPrefixOf, hc2]
      have htake : (c :: cs).takeWhile (fun c => c ≠ 59) =
          c :: cs.takeWhile (fun c => c ≠ 59) := by
        simp [List.takeWhile, hc]
      rw [hstep, ih, htake]
      simp

/-- The repository part of a dependency string is what precedes the first ";". -/
theorem strings.Split_head (d : GoString) :
    (strings.Split d (str ";")).headD [] = d.takeWhile (fun c => c ≠ 59) := by
  simpa [strings.Split] using strings.splitGo_head d []

theorem fetch.fetchLoop_append (w : World) (dir : GoString) :
    ∀ (l₁ l₂ : List GoString) (h : History),
      fetch.fetchLoop w dir h (l₁ ++ l₂) =
        match fetch.fetchLoop w dir h l₁ with
        | (h1, some err) => (h1, some err)
        | (h1, none) => fetch.fetchLoop w dir h1 l₂
  | [], _, _ => rfl
  | d :: l₁, l₂, h => by
    simp only [List.cons_append, fetch.fetchLoop]
    split
    · exact fetch.fetchLoop_append w dir l₁ l₂ h
    · split
      · rfl
      · exact fetch.fetchLoop_append w dir l₁ l₂ _

theorem fetch.fetchLoop_all_present (w : World) (dir : GoString) (h : History) :
    ∀ deps : List GoString,
      (∀ d ∈ deps, fetch.exists_ w h
        (filepath.Join [dir, filepath.Base (d.takeWhile (fun c => c ≠ 59))]) = true) →
      fetch.fetchLoop w dir h deps = (h, none)
  | [], _ => rfl
  | d :: rest, hall => by
    have hd := hall d (List.mem_cons_self _ _)
    simp only [fetch.fetchLoop, strings.Split_head, hd, if_true]
    exact fetch.fetchLoop_all_present w dir h rest
      (fun e he => hall e (List.mem_cons_of_mem _ he))

/-- C8 as stated fails: with an empty dependency list every target exists, yet when the
destination directory cannot be created `FetchDependencies` returns that error. -/
theorem FetchDependencies_error_without_clone :
    (∀ d ∈ ([] : List GoString), fetch.exists_ readOnlyWorld [Event.MkdirAll dir 0o777]
        (filepath.Join [dir, filepath.Base (d.takeWhile (fun c => c ≠ 59))]) = true) ∧
      fetch.FetchDependencies readOnlyWorld [] dir [] =
        ([Event.MkdirAll dir 0o777], some (str "read-only file system")) := by
  decide

/-- C8, amended: a dependency whose target `filepath.Join(dir, filepath.Base(u))` exists
when the loop gets to it, `u` being the dependency string up to its first ";", is
passed over without a `git clone`: the loop runs as if it were not in the list.  When
`os.MkdirAll(dir)` succeeds and every target exists, `FetchDependencies` returns nil
and the history gains only that `MkdirAll`: no clone is run. -/
theorem FetchDependencies_leaves_present_targets (w : World) (dir : GoString)
    (h h1 : History) (pre post : List GoString) (d : GoString)
    (hpre : fetch.fetchLoop w dir h pre = (h1, none))
    (hd : fetch.exists_ w h1
      (filepath.Join [dir, filepath.Base (d.takeWhile (fun c => c ≠ 59))]) = true) :
    fetch.fetchLoop w dir h1 (d :: post) = fetch.fetchLoop w dir h1 post ∧
      fetch.fetchLoop w dir h (pre ++ d :: post) = fetch.fetchLoop w dir h (pre ++ post) ∧
      (∀ (h0 : History) (deps : List GoString), w.MkdirAll h0 dir 0o777 = none →
        (∀ e ∈ deps, fetch.exists_ w (h0 ++ [Event.MkdirAll dir 0o777])
          (filepath.Join [dir, filepath.Base (e.takeWhile (fun c => c ≠ 59))]) = true) →
        fetch.FetchDependencies w h0 dir deps = (h0 ++ [Event.MkdirAll dir 0o777], none) ∧
          clones (fetch.FetchDependencies w h0 dir deps).1 = clones h0) := by
  have hone : fetch.fetchLoop w dir h1 (d :: post) = fetch.fetchLoop w dir h1 post := by
    simp only [fetch.fetchLoop, strings.Split_head, hd, if_true]
  refine ⟨hone, ?_, ?_⟩
  · rw [fetch.fetchLoop_append, fetch.fetchLoop_append, hpre]
    exact hone
  · intro h0 deps hmk hall
    have hrun : fetch.FetchDependencies w h0 dir deps =
        (h0 ++ [Event.MkdirAll dir 0o777], none) := by
      simp only [fetch.FetchDependencies, hmk]
      exact fetch.fetchLoop_all_present w dir _ deps hall
    refine ⟨hrun, ?_⟩
    rw [hrun]
    simp [clones, isClone]

theorem FetchDependencies_leaves_present_targets_witness :
    fetch.FetchDependencies (quietWorld sampleVisits fooSet) [] dir deps =
      ([] ++ [Event.MkdirAll dir 0o777], none) :=
  ((FetchDependencies_leaves_present_targets (quietWorld sampleVisits fooSet) dir
    [Event.MkdirAll dir 0o777] [Event.MkdirAll dir 0o777] [] []
    (str "https://github.com/googleapis/googleapis;google") rfl (by decide)).2.2
    [] deps rfl (by decide)).1

/-- When nothing has been fetched, the repository is cloned from inside `deps`. -/
theorem FetchDependencies_clones_missing :
    fetch.FetchDependencies freshWorld [] dir deps =
      ([Event.MkdirAll (str "deps") 0o777,
        Event.Command (str "deps") (str "git")
          [str "clone", str "https://github.com/googleapis/googleapis"]], none) := by
  decide

/-! ## The loop of `main` -/

theorem described_append : ∀ h₁ h₂ : History,
    described (h₁ ++ h₂) = described h₁ ++ described h₂
  | [], _ => rfl
  | e :: h₁, h₂ => by
    cases e <;> simp [described, described_append h₁ h₂]

theorem described_copyFile (w : World) (h : History) (src dest : GoString) :
    described (copyFile w h src dest).1 = described h := by
  unfold copyFile
  simp only
  split
  · simp [described_append, described]
  · split <;> simp [described_append, described]

theorem described_copyFirst (w : World) (specDir a : GoString) (h : History) :
    ∀ l : List GoString, described (copyFirst w h specDir a l).1 = described h
  | [] => rfl
  | p :: l => by
    unfold copyFirst
    split
    · exact described_copyFile w h p _
    · exact described_copyFirst w specDir a h l

theorem described_copyLoop (w : World) (specDir : GoString) (allProtos : List GoString) :
    ∀ (l : List GoString) (h : History),
      described (copyLoop w specDir allProtos h l).1 = described h
  | [], _ => rfl
  | a :: l, h => by
    have h1 := described_copyFirst w specDir a h allProtos
    unfold copyLoop
    rcases hc : copyFirst w h specDir a allProtos with ⟨h2, _ | err⟩
    · rw [hc] at h1
      simp only
      rw [described_copyLoop w specDir allProtos l h2]
      exact h1
    · rw [hc] at h1
      exact h1

theorem described_saveInfo (w : World) (h : History) (r : Record) (name : GoString) :
    described (saveInfo w h r name).1 = described h := by
  unfold saveInfo
  split <;> simp [described_append, described]

theorem described_referencedProtos (w : World) (h : History) (protos : List GoString)
    (root : GoString) : described (referencedProtos w h protos root).1 = described h := by
  unfold referencedProtos
  simp only
  split
  · simp [described_append, described]
  · split <;> simp [described_append, described]

theorem described_assemble (w : World) (h : History) (apiIndex : ApiIndexEntry)
    (container : GoString) (allProtos all : List GoString) :
    described (assemble w h apiIndex container allProtos all).1 = described h := by
  unfold assemble
  simp only
  split
  · simp [described_append, described]
  · have e1 := described_copyLoop w (specDir apiIndex) allProtos all
      (h ++ [Event.MkdirAll
        (filepath.Join [out, apiID apiIndex, versionID apiIndex, specID]) 0o777])
    have e0 : described (h ++ [Event.MkdirAll
        (filepath.Join [out, apiID apiIndex, versionID apiIndex, specID]) 0o777]) =
        described h := by simp [described_append, described]
    rw [e0] at e1
    split
    · rename_i h2 err hc
      rw [hc] at e1
      exact e1
    · rename_i h2 hc
      rw [hc] at e1
      have e2 := described_copyFile w h2 (filepath.Join [container, apiIndex.ConfigFile])
        (filepath.Join [specDir apiIndex, apiIndex.Directory, apiIndex.ConfigFile])
      split
      · rename_i h3 err hc3
        rw [hc3] at e2
        exact e2.trans e1
      · rename_i h3 hc3
        rw [hc3] at e2
        have e3 := described_saveInfo w h3 (.spec (apiSpec w apiIndex))
          (filepath.Join [out, apiID apiIndex, versionID apiIndex, specID, str "info.yaml"])
        split
        · rename_i h4 err hc4
          rw [hc4] at e3
          exact e3.trans (e2.trans e1)
        · rename_i h4 hc4
          rw [hc4] at e3
          have e4 := described_saveInfo w h4 (.version (apiVersion w apiIndex))
            (filepath.Join [out, apiID apiIndex, versionID apiIndex, str "info.yaml"])
          split
          · rename_i h5 err hc5
            rw [hc5] at e4
            exact e4.trans (e3.trans (e2.trans e1))
          · rename_i h5 hc5
            rw [hc5] at e4
            have e5 := described_saveInfo w h5 (.api (api w apiIndex))
              (filepath.Join [out, apiID apiIndex, str "info.yaml"])
            split
            · rename_i h6 err hc6
              rw [hc6] at e5
              exact e5.trans (e4.trans (e3.trans (e2.trans e1)))
            · rename_i h6 hc6
              rw [hc6] at e5
              exact e5.trans (e4.trans (e3.trans (e2.trans e1)))

/-- A call of `describeAPI` leaves exactly one record of itself in the history. -/
theorem described_describeAPI (w : World) (h : History) (apiIndex : ApiIndexEntry)
    (root : GoString) (allProtos : List GoString) :
    described (describeAPI w h apiIndex root allProtos).1 = described h ++ [apiIndex] := by
  have e0 : described (h ++ [Event.describeAPI apiIndex]) = described h ++ [apiIndex] := by
    simp [described_append, described]
  unfold describeAPI
  simp only
  split
  · exact e0
  · split
    · exact e0
    · rename_i protos hw
      split
      · exact e0
      · have e1 := described_referencedProtos w (h ++ [Event.describeAPI apiIndex]) protos
          (str "")
        split
        · rename_i h1 err hc
          rw [hc] at e1
          exact e1.trans e0
        · rename_i h1 hc
          rw [hc] at e1
          exact e1.trans e0
        · rename_i h1 all hc
          rw [hc] at e1
          rw [described_assemble]
          exact e1.trans e0

theorem mainLoop_append (w : World) (root : GoString) (allProtos : List GoString) :
    ∀ (l₁ l₂ : List ApiIndexEntry) (h h1 : History),
      mainLoop w root allProtos h l₁ = (h1, .ok) →
      mainLoop w root allProtos h (l₁ ++ l₂) = mainLoop w root allProtos h1 l₂
  | [], _, h, h1, hl => by
    simp only [mainLoop, Prod.mk.injEq, and_true] at hl
    subst hl
    rfl
  | e :: l₁, l₂, h, h1, hl => by
    simp only [List.cons_append, mainLoop] at hl ⊢
    rcases hc : describeAPI w h e root allProtos with ⟨h2, _ | err | _⟩
    · rw [hc] at hl
      simp only at hl ⊢
      exact mainLoop_append w root allProtos l₁ l₂ h2 h1 hl
    · rw [hc] at hl
      simp at hl
    · rw [hc] at hl
      simp at hl

theorem described_mainLoop_ok (w : World) (root : GoString) (allProtos : List GoString) :
    ∀ (l : List ApiIndexEntry) (h h1 : History),
      mainLoop w root allProtos h l = (h1, .ok) → described h1 = described h ++ l
  | [], h, h1, hl => by
    simp only [mainLoop, Prod.mk.injEq, and_true] at hl
    subst hl
    simp
  | e :: l, h, h1, hl => by
    simp only [mainLoop] at hl
    have hd := described_describeAPI w h e root allProtos
    rcases hc : describeAPI w h e root allProtos with ⟨h2, _ | err | _⟩
    · rw [hc] at hl hd
      simp only at hl hd
      rw [described_mainLoop_ok w root allProtos l h2 h1 hl, hd]
      simp
    · rw [hc] at hl
      simp at hl
    · rw [hc] at hl
      simp at hl

/-- C7: when `describeAPI` returned nil for the entries `pre` before position k and
returns an error for the entry at position k, the loop of `main` ends in `log.Fatalf`
for that entry, and `describeAPI` has been called on exactly the entries at positions
0..k, in catalog order: none after position k is processed. -/
theorem mainLoop_aborts_at_first_error (w : World) (root : GoString)
    (allProtos : List GoString) (h h1 h2 : History) (pre post : List ApiIndexEntry)
    (apiIndex : ApiIndexEntry) (err : GoError)
    (hpre : mainLoop w root allProtos h pre = (h1, .ok))
    (hfail : describeAPI w h1 apiIndex root allProtos = (h2, .error err)) :
    mainLoop w root allProtos h (pre ++ apiIndex :: post) = (h2, .fatal apiIndex err) ∧
      described h2 =
        described h ++ (pre ++ apiIndex :: post).take (pre.length + 1) := by
  constructor
  · rw [mainLoop_append w root allProtos pre _ h h1 hpre]
    simp only [mainLoop, hfail]
  · have hd := described_describeAPI w h1 apiIndex root allProtos
    rw [hfail] at hd
    simp only at hd
    rw [hd, described_mainLoop_ok w root allProtos pre h h1 hpre]
    simp [List.take_append_eq_append_take]

theorem mainLoop_aborts_at_first_error_witness :
    (mainLoop failingWorld (str "deps/googleapis") samplePhysical []
        ([barEntry] ++ fooEntry :: [bazEntry])).2 =
      .fatal fooEntry (str "permission denied") :=
  congrArg Prod.snd
    (mainLoop_aborts_at_first_error failingWorld (str "deps/googleapis") samplePhysical []
      [Event.describeAPI barEntry]
      (describeAPI failingWorld [Event.describeAPI barEntry] fooEntry (str "deps/googleapis")
        samplePhysical).1
      [barEntry] [bazEntry] fooEntry (str "permission denied")
      (by set_option maxRecDepth 100000 in decide)
      (by set_option maxRecDepth 100000 in decide)).1


/-! ## A complete run on the sample tree -/

/-- In the sample tree `describeAPI` returns nil for `fooEntry` after copying the two
resolved files and the service configuration to their places under the spec directory. -/
theorem describeAPI_sample_run :
    (describeAPI (quietWorld sampleVisits fooSet) [] fooEntry (str "deps/googleapis")
        samplePhysical).2 = .ok () ∧
      copies (describeAPI (quietWorld sampleVisits fooSet) [] fooEntry
          (str "deps/googleapis") samplePhysical).1 =
        [(str "deps/googleapis/google/cloud/foo/v1/foo.proto",
          str "apis/google.com/foo/v1/protos/google/cloud/foo/v1/foo.proto"),
         (str "deps/googleapis/google/type/date.proto",
          str "apis/google.com/foo/v1/protos/google/type/date.proto"),
         (str "deps/googleapis/google/cloud/foo/v1/foo_v1.yaml",
          str "apis/google.com/foo/v1/protos/google/cloud/foo/v1/foo_v1.yaml")] := by
  set_option maxRecDepth 100000 in decide

end ImportGoogleApis
